import Mathlib

/-!
Verification of the findiff stencil-generation and operator-algebra engine.

The repository ships the polar-coordinates example notebook; the numerical
core it exercises (stencil coefficient solving, per-axis derivative
application, and the operator expression algebra) is modelled here from the
design specification, over exact rational arithmetic.
-/

namespace Findiff

/-- Modelled from the spec: the error kinds of §7 (the findiff core itself is
not in the repository sources; only the example notebook is). -/
inductive FindiffError where
  | singularStencil
  | insufficientGrid
  | shapeMismatch
  | invalidSpacing
deriving DecidableEq

/-- Modelled from the spec (§4.1): the square Taylor-expansion matrix of the
stencil system, `M[j][i] = offsets[i]^j / j!`. -/
def stencilMatrix (offs : List ℤ) : Matrix (Fin offs.length) (Fin offs.length) ℚ :=
  Matrix.of fun j i => ((offs.get i : ℚ) ^ (j : ℕ)) / (Nat.factorial (j : ℕ) : ℚ)

/-- Modelled from the spec (§4.1): the right-hand side `e_order`, the unit
vector with `1` at index `order`. -/
def unitVec (n order : ℕ) : Fin n → ℚ :=
  fun j => if (j : ℕ) = order then 1 else 0

/-- Linear solve of `M · w = b` by Cramer's rule (`w = det⁻¹ • adjugate M · b`);
this is the exact-arithmetic linear solve the spec's solver performs. -/
def solveVec {n : ℕ} (M : Matrix (Fin n) (Fin n) ℚ) (b : Fin n → ℚ) : Fin n → ℚ :=
  (M.det)⁻¹ • (M.adjugate.mulVec b)

/-- Modelled from the spec (§4.1): the finite-difference weights for the
`order`-th derivative on the given integer offsets, as the solution of
`stencilMatrix · w = unitVec`.  (Total function: on a singular system it
returns the zero vector, since `det⁻¹ = 0`.) -/
def stencilWeights (order : ℕ) (offs : List ℤ) : Fin offs.length → ℚ :=
  solveVec (stencilMatrix offs) (unitVec offs.length order)

/-- The weights as a sequence, one entry per offset. -/
def weightsList (order : ℕ) (offs : List ℤ) : List ℚ :=
  List.ofFn (stencilWeights order offs)

/-- Modelled from the spec (§4.1): `StencilCoefficientSolver.solve`.  Builds
the `len(offsets) × len(offsets)` matrix `M[j][i] = offsets[i]^j / j!` and
solves `M·w = e_order`; fails with `SingularStencilError` when the linear
system is singular (degenerate offsets) or the unit-vector index `order` is
out of range (insufficient offsets). -/
def solve (order : ℕ) (offs : List ℤ) : Except FindiffError (List ℚ) :=
  if (stencilMatrix offs).det ≠ 0 ∧ order < offs.length then
    .ok (weightsList order offs)
  else
    .error .singularStencil

theorem solveVec_unique {n : ℕ} (M : Matrix (Fin n) (Fin n) ℚ) (b v : Fin n → ℚ)
    (hdet : M.det ≠ 0) (hv : M.mulVec v = b) : solveVec M b = v := by
  unfold solveVec
  rw [← hv, Matrix.mulVec_mulVec, Matrix.adjugate_mul, Matrix.smul_mulVec_assoc,
    Matrix.one_mulVec, smul_smul, inv_mul_cancel₀ hdet, one_smul]

theorem mulVec_solveVec {n : ℕ} (M : Matrix (Fin n) (Fin n) ℚ) (b : Fin n → ℚ)
    (hdet : M.det ≠ 0) : M.mulVec (solveVec M b) = b := by
  unfold solveVec
  rw [Matrix.mulVec_smul, Matrix.mulVec_mulVec, Matrix.mul_adjugate, Matrix.smul_mulVec_assoc,
    Matrix.one_mulVec, smul_smul, inv_mul_cancel₀ hdet, one_smul]

/-- The generalized Vandermonde system is nonsingular exactly when the offsets
are pairwise distinct. -/
theorem det_stencilMatrix_ne_zero_iff (offs : List ℤ) :
    (stencilMatrix offs).det ≠ 0 ↔ offs.Nodup := by
  have hfac : stencilMatrix offs =
      Matrix.diagonal (fun j : Fin offs.length => ((Nat.factorial (j : ℕ) : ℚ))⁻¹) *
        (Matrix.vandermonde fun i : Fin offs.length => (offs.get i : ℚ)).transpose := by
    ext j i
    rw [Matrix.diagonal_mul]
    simp [stencilMatrix, Matrix.vandermonde, div_eq_inv_mul]
  have hdiag : (∏ j : Fin offs.length, ((Nat.factorial (j : ℕ) : ℚ))⁻¹) ≠ 0 := by
    rw [Finset.prod_ne_zero_iff]
    intro j _
    exact inv_ne_zero (Nat.cast_ne_zero.mpr (Nat.factorial_ne_zero _))
  rw [hfac, Matrix.det_mul, Matrix.det_diagonal, Matrix.det_transpose]
  constructor
  · intro h
    have hv : (Matrix.vandermonde fun i : Fin offs.length => (offs.get i : ℚ)).det ≠ 0 :=
      fun hz => h (by rw [hz, mul_zero])
    have hinj : Function.Injective fun i : Fin offs.length => (offs.get i : ℚ) :=
      Matrix.det_vandermonde_ne_zero_iff.mp hv
    exact List.nodup_iff_injective_get.mpr fun a b hab =>
      hinj (by simpa using congrArg (fun z : ℤ => (z : ℚ)) hab)
  · intro h
    refine mul_ne_zero hdiag (Matrix.det_vandermonde_ne_zero_iff.mpr ?_)
    intro a b hab
    exact List.nodup_iff_injective_get.mp h (Int.cast_injective hab)

theorem solve_ok (order : ℕ) (offs : List ℤ) (h2 : offs.Nodup) (h3 : order < offs.length) :
    solve order offs = .ok (weightsList order offs) := by
  unfold solve
  rw [if_pos ⟨(det_stencilMatrix_ne_zero_iff offs).mpr h2, h3⟩]

theorem stencil_mulVec (order : ℕ) (offs : List ℤ) (h2 : offs.Nodup) :
    (stencilMatrix offs).mulVec (stencilWeights order offs) = unitVec offs.length order :=
  mulVec_solveVec _ _ ((det_stencilMatrix_ne_zero_iff offs).mpr h2)

/-- Moment conditions satisfied by the solved weights: the `j`-th discrete
moment of the stencil equals `j! · δ_{j,order}` for every `j` below the
stencil size. -/
theorem moments (order : ℕ) (offs : List ℤ) (h2 : offs.Nodup) (j : ℕ) (hj : j < offs.length) :
    ∑ k : Fin offs.length, stencilWeights order offs k * ((offs.get k : ℚ)) ^ j =
      if j = order then (Nat.factorial order : ℚ) else 0 := by
  have hrow := congrFun (stencil_mulVec order offs h2) ⟨j, hj⟩
  simp only [Matrix.mulVec, Matrix.dotProduct, stencilMatrix, Matrix.of_apply, unitVec] at hrow
  have hfac : (Nat.factorial j : ℚ) ≠ 0 := Nat.cast_ne_zero.mpr (Nat.factorial_ne_zero _)
  have hsum : ∑ k : Fin offs.length, stencilWeights order offs k * ((offs.get k : ℚ)) ^ j =
      (Nat.factorial j : ℚ) *
        ∑ k : Fin offs.length, (offs.get k : ℚ) ^ j / (Nat.factorial j : ℚ) *
          stencilWeights order offs k := by
    rw [Finset.mul_sum]
    refine Finset.sum_congr rfl fun k _ => ?_
    field_simp
    ring
  rw [hsum, hrow]
  by_cases hcase : j = order
  · subst hcase; simp
  · simp [hcase]

/-- For any derivative order at least 1, the solved weights sum to zero. -/
theorem sum_stencilWeights_eq_zero (order : ℕ) (offs : List ℤ) (h2 : offs.Nodup)
    (h1 : 1 ≤ order) (h0 : 0 < offs.length) :
    ∑ k : Fin offs.length, stencilWeights order offs k = 0 := by
  have h := moments order offs h2 0 h0
  simp only [pow_zero, mul_one] at h
  rw [h, if_neg (by omega)]

/-- Modelled from the spec (§3, §4.2): number of points of the maximal
centered stencil for derivative order `d` and accuracy `a`. -/
def numPointsCentral (d a : ℕ) : ℕ := 2 * ((d + 1) / 2) - 1 + a

/-- Half-width of the centered stencil; the first/last `halfWidth` points of an
axis use one-sided stencils. -/
def halfWidth (d a : ℕ) : ℕ := numPointsCentral d a / 2

/-- Modelled from the spec (§4.2): number of points of a one-sided boundary
stencil, truncated to the available axis length. -/
def numPointsSide (d a N : ℕ) : ℕ := min (d + a) N

/-- Offsets of the centered interior stencil, symmetric around zero. -/
def offsetsCentered (d a : ℕ) : List ℤ :=
  List.ofFn fun k : Fin (numPointsCentral d a) => ((k : ℕ) : ℤ) - (halfWidth d a : ℤ)

/-- Offsets of the one-sided stencil at left-boundary point `i` (all sample
positions lie in `[0, numPointsSide)`). -/
def offsetsLeft (d a N i : ℕ) : List ℤ :=
  List.ofFn fun k : Fin (numPointsSide d a N) => ((k : ℕ) : ℤ) - (i : ℤ)

/-- Offsets of the one-sided stencil at right-boundary point `i` (all sample
positions lie in `(N - numPointsSide, N)`). -/
def offsetsRight (d a N i : ℕ) : List ℤ :=
  List.ofFn fun k : Fin (numPointsSide d a N) =>
    ((N : ℤ) - 1 - (i : ℤ)) - ((numPointsSide d a N : ℤ) - 1) + ((k : ℕ) : ℤ)

/-- Modelled from the spec (§4.2): which stencil a grid point uses — one-sided
near either boundary, centered in the interior. -/
def stencilAt (d a N i : ℕ) : List ℤ :=
  if i < halfWidth d a then offsetsLeft d a N i
  else if N - 1 - halfWidth d a < i then offsetsRight d a N i
  else offsetsCentered d a

/-- Reads a 1-D sampled line at a (possibly shifted) integer index; out-of-range
reads return 0 but never occur for the stencils selected by `stencilAt`. -/
def lineExt (N : ℕ) (u : Fin N → ℚ) (z : ℤ) : ℚ :=
  if h : 0 ≤ z ∧ z < (N : ℤ) then u ⟨z.toNat, by omega⟩ else 0

/-- Modelled from the spec (§4.2): application of the derivative operator along
one sampled line — at each point, the weighted sum of shifted samples for that
point's stencil, scaled by `1 / h^order`. -/
def applyLine (d a : ℕ) (h : ℚ) {N : ℕ} (u : Fin N → ℚ) (i : Fin N) : ℚ :=
  (h ^ d)⁻¹ * ∑ k : Fin (stencilAt d a N (i : ℕ)).length,
    stencilWeights d (stencilAt d a N (i : ℕ)) k *
      lineExt N u ((i : ℕ) + (stencilAt d a N (i : ℕ)).get k)

theorem numPointsCentral_odd (d a : ℕ) (hd : 1 ≤ d) (ha : Even a) :
    numPointsCentral d a = 2 * halfWidth d a + 1 := by
  obtain ⟨b, rfl⟩ := ha
  unfold halfWidth numPointsCentral
  omega

theorem numPointsCentral_of_even (d a : ℕ) (hd : 1 ≤ d) (hde : Even d) :
    numPointsCentral d a = d + a - 1 := by
  obtain ⟨c, rfl⟩ := hde
  unfold numPointsCentral
  omega

theorem numPointsCentral_of_odd (d a : ℕ) (hde : ¬ Even d) :
    numPointsCentral d a = d + a := by
  have h2 : d % 2 = 1 := by
    rcases Nat.even_or_odd d with he | ho
    · exact absurd he hde
    · obtain ⟨c, rfl⟩ := ho; omega
  unfold numPointsCentral
  omega

theorem le_numPointsCentral (d a : ℕ) (hd : 1 ≤ d) (ha : Even a) (ha0 : 0 < a) :
    d + 1 ≤ numPointsCentral d a := by
  obtain ⟨b, rfl⟩ := ha
  unfold numPointsCentral
  omega

theorem length_offsetsCentered (d a : ℕ) :
    (offsetsCentered d a).length = numPointsCentral d a :=
  List.length_ofFn _

theorem get_offsetsCentered (d a : ℕ) (k : Fin (offsetsCentered d a).length) :
    (offsetsCentered d a).get k = ((k : ℕ) : ℤ) - (halfWidth d a : ℤ) := by
  simp [offsetsCentered, List.get_ofFn]

theorem length_offsetsLeft (d a N i : ℕ) :
    (offsetsLeft d a N i).length = numPointsSide d a N :=
  List.length_ofFn _

theorem get_offsetsLeft (d a N i : ℕ) (k : Fin (offsetsLeft d a N i).length) :
    (offsetsLeft d a N i).get k = ((k : ℕ) : ℤ) - (i : ℤ) := by
  simp [offsetsLeft, List.get_ofFn]

theorem length_offsetsRight (d a N i : ℕ) :
    (offsetsRight d a N i).length = numPointsSide d a N :=
  List.length_ofFn _

theorem get_offsetsRight (d a N i : ℕ) (k : Fin (offsetsRight d a N i).length) :
    (offsetsRight d a N i).get k =
      ((N : ℤ) - 1 - (i : ℤ)) - ((numPointsSide d a N : ℤ) - 1) + ((k : ℕ) : ℤ) := by
  simp [offsetsRight, List.get_ofFn]

theorem nodup_offsetsCentered (d a : ℕ) : (offsetsCentered d a).Nodup := by
  rw [offsetsCentered, List.nodup_ofFn]
  intro x y hxy
  simp only [] at hxy
  exact Fin.ext (by omega)

theorem nodup_offsetsLeft (d a N i : ℕ) : (offsetsLeft d a N i).Nodup := by
  rw [offsetsLeft, List.nodup_ofFn]
  intro x y hxy
  simp only [] at hxy
  exact Fin.ext (by omega)

theorem nodup_offsetsRight (d a N i : ℕ) : (offsetsRight d a N i).Nodup := by
  rw [offsetsRight, List.nodup_ofFn]
  intro x y hxy
  simp only [] at hxy
  exact Fin.ext (by omega)

/-- Every stencil selected by a validly constructed operator is nondegenerate,
large enough for the requested derivative, and references only in-range sample
positions. -/
theorem stencilAt_facts (d a N : ℕ) (hd : 1 ≤ d) (ha : Even a) (ha0 : 0 < a)
    (hN : numPointsCentral d a ≤ N) (i : ℕ) (hi : i < N) :
    (stencilAt d a N i).Nodup ∧ d < (stencilAt d a N i).length ∧
      ∀ off ∈ stencilAt d a N i,
        0 ≤ (i : ℤ) + off ∧ (i : ℤ) + off < (N : ℤ) := by
  have hL := le_numPointsCentral d a hd ha ha0
  have hside : d + 1 ≤ numPointsSide d a N := by
    unfold numPointsSide
    omega
  have hKN : numPointsSide d a N ≤ N := by unfold numPointsSide; omega
  have hparity := numPointsCentral_odd d a hd ha
  unfold stencilAt
  split_ifs with h1 h2
  · refine ⟨nodup_offsetsLeft d a N i, ?_, ?_⟩
    · rw [length_offsetsLeft]; omega
    · intro off hoff
      obtain ⟨k, rfl⟩ := (List.mem_ofFn _ _).mp hoff
      simp only []
      have hk := k.isLt
      omega
  · refine ⟨nodup_offsetsRight d a N i, ?_, ?_⟩
    · rw [length_offsetsRight]; omega
    · intro off hoff
      obtain ⟨k, rfl⟩ := (List.mem_ofFn _ _).mp hoff
      simp only []
      have hk := k.isLt
      omega
  · refine ⟨nodup_offsetsCentered d a, ?_, ?_⟩
    · rw [length_offsetsCentered]; omega
    · intro off hoff
      obtain ⟨k, rfl⟩ := (List.mem_ofFn _ _).mp hoff
      simp only []
      have hk := k.isLt
      omega

/-- Applying the derivative operator along a constant line yields zero at every
point, boundaries included, because every region's weights sum to zero. -/
theorem applyLine_const (d a N : ℕ) (hd : 1 ≤ d) (ha : Even a) (ha0 : 0 < a)
    (hN : numPointsCentral d a ≤ N) (h : ℚ) (c : ℚ) (i : Fin N) :
    applyLine d a h (fun _ : Fin N => c) i = 0 := by
  obtain ⟨hnd, hdlen, hrange⟩ := stencilAt_facts d a N hd ha ha0 hN (i : ℕ) i.isLt
  unfold applyLine
  have hterm : ∀ k : Fin (stencilAt d a N (i : ℕ)).length,
      lineExt N (fun _ : Fin N => c) (((i : ℕ) : ℤ) + (stencilAt d a N (i : ℕ)).get k) = c := by
    intro k
    have hr := hrange ((stencilAt d a N (i : ℕ)).get k)
      (List.get_mem (stencilAt d a N (i : ℕ)) k.1 k.2)
    unfold lineExt
    rw [dif_pos hr]
  have hsum : ∑ k : Fin (stencilAt d a N (i : ℕ)).length,
      stencilWeights d (stencilAt d a N (i : ℕ)) k *
        lineExt N (fun _ : Fin N => c) (((i : ℕ) : ℤ) + (stencilAt d a N (i : ℕ)).get k) =
      (∑ k : Fin (stencilAt d a N (i : ℕ)).length,
        stencilWeights d (stencilAt d a N (i : ℕ)) k) * c := by
    rw [Finset.sum_mul]
    exact Finset.sum_congr rfl fun k _ => by rw [hterm k]
  rw [hsum, sum_stencilWeights_eq_zero d (stencilAt d a N (i : ℕ)) hnd hd (by omega),
    zero_mul, mul_zero]

/-- Finite Taylor expansion of a polynomial in terms of Hasse derivatives. -/
theorem poly_eval_add (P : Polynomial ℚ) (B : ℕ) (hB : P.natDegree < B) (y t : ℚ) :
    P.eval (y + t) = ∑ j in Finset.range B, (Polynomial.hasseDeriv j P).eval y * t ^ j := by
  have h1 : ((Polynomial.taylor y) P).eval t = P.eval (y + t) := by
    rw [Polynomial.taylor_apply, Polynomial.eval_comp]
    simp [add_comm]
  have h2 : ((Polynomial.taylor y) P).natDegree < B := by
    rwa [Polynomial.natDegree_taylor]
  rw [← h1, Polynomial.eval_eq_sum_range' h2]
  exact Finset.sum_congr rfl fun j _ => by rw [Polynomial.taylor_coeff]

/-- The iterated derivative evaluates as `d!` times the Hasse derivative. -/
theorem eval_iterate_derivative (P : Polynomial ℚ) (d : ℕ) (x : ℚ) :
    (Polynomial.derivative^[d] P).eval x =
      (Nat.factorial d : ℚ) * (Polynomial.hasseDeriv d P).eval x := by
  rw [← Polynomial.factorial_smul_hasseDeriv]
  show ((d.factorial • Polynomial.hasseDeriv d) P).eval x = _
  rw [LinearMap.smul_apply]
  simp [nsmul_eq_mul]

/-- Core exactness computation: if the stencil at point `i` satisfies the
moment conditions up to a bound that dominates the polynomial degree and the
derivative order, the finite difference reproduces the iterated derivative of
the sampled polynomial exactly. -/
theorem applyLine_exact_core (d a N : ℕ) (hd : 1 ≤ d) (ha : Even a) (ha0 : 0 < a)
    (hN : numPointsCentral d a ≤ N) (h : ℚ) (hh : h ≠ 0) (x0 : ℚ) (P : Polynomial ℚ)
    (i : Fin N) (B : ℕ) (hdB : d < B) (hPB : P.natDegree < B)
    (hmom : ∀ j < B, ∑ k : Fin (stencilAt d a N (i : ℕ)).length,
        stencilWeights d (stencilAt d a N (i : ℕ)) k *
          (((stencilAt d a N (i : ℕ)).get k : ℤ) : ℚ) ^ j =
        if j = d then (Nat.factorial d : ℚ) else 0) :
    applyLine d a h (fun t : Fin N => P.eval (x0 + (t : ℚ) * h)) i =
      (Polynomial.derivative^[d] P).eval (x0 + (i : ℚ) * h) := by
  obtain ⟨hnd, hdlen, hrange⟩ := stencilAt_facts d a N hd ha ha0 hN (i : ℕ) i.isLt
  unfold applyLine
  have hterm : ∀ k : Fin (stencilAt d a N (i : ℕ)).length,
      lineExt N (fun t : Fin N => P.eval (x0 + (t : ℚ) * h))
          (((i : ℕ) : ℤ) + (stencilAt d a N (i : ℕ)).get k) =
        P.eval ((x0 + (i : ℚ) * h) + (((stencilAt d a N (i : ℕ)).get k : ℤ) : ℚ) * h) := by
    intro k
    have hr := hrange ((stencilAt d a N (i : ℕ)).get k)
      (List.get_mem (stencilAt d a N (i : ℕ)) k.1 k.2)
    unfold lineExt
    rw [dif_pos hr]
    simp only []
    congr 1
    have h1 : (((((i : ℕ) : ℤ) + (stencilAt d a N (i : ℕ)).get k).toNat : ℤ)) =
        ((i : ℕ) : ℤ) + (stencilAt d a N (i : ℕ)).get k := Int.toNat_of_nonneg hr.1
    have hnat : ((((i : ℕ) : ℤ) + (stencilAt d a N (i : ℕ)).get k).toNat : ℚ) =
        ((i : ℕ) : ℚ) + (((stencilAt d a N (i : ℕ)).get k : ℤ) : ℚ) := by
      exact_mod_cast congrArg (fun z : ℤ => (z : ℚ)) h1
    rw [hnat]
    ring
  have hstep : ∑ k : Fin (stencilAt d a N (i : ℕ)).length,
      stencilWeights d (stencilAt d a N (i : ℕ)) k *
        lineExt N (fun t : Fin N => P.eval (x0 + (t : ℚ) * h))
          (((i : ℕ) : ℤ) + (stencilAt d a N (i : ℕ)).get k) =
      (Polynomial.hasseDeriv d P).eval (x0 + (i : ℚ) * h) * h ^ d *
        (Nat.factorial d : ℚ) := by
    have e1 : ∀ k : Fin (stencilAt d a N (i : ℕ)).length,
        stencilWeights d (stencilAt d a N (i : ℕ)) k *
          lineExt N (fun t : Fin N => P.eval (x0 + (t : ℚ) * h))
            (((i : ℕ) : ℤ) + (stencilAt d a N (i : ℕ)).get k) =
        ∑ j in Finset.range B,
          (Polynomial.hasseDeriv j P).eval (x0 + (i : ℚ) * h) * h ^ j *
            (stencilWeights d (stencilAt d a N (i : ℕ)) k *
              (((stencilAt d a N (i : ℕ)).get k : ℤ) : ℚ) ^ j) := by
      intro k
      rw [hterm k, poly_eval_add P B hPB, Finset.mul_sum]
      exact Finset.sum_congr rfl fun j _ => by rw [mul_pow]; ring
    rw [Finset.sum_congr rfl fun k _ => e1 k, Finset.sum_comm]
    have e2 : ∀ j ∈ Finset.range B,
        ∑ k : Fin (stencilAt d a N (i : ℕ)).length,
          (Polynomial.hasseDeriv j P).eval (x0 + (i : ℚ) * h) * h ^ j *
            (stencilWeights d (stencilAt d a N (i : ℕ)) k *
              (((stencilAt d a N (i : ℕ)).get k : ℤ) : ℚ) ^ j) =
        (Polynomial.hasseDeriv j P).eval (x0 + (i : ℚ) * h) * h ^ j *
          (if j = d then (Nat.factorial d : ℚ) else 0) := by
      intro j hj
      rw [← Finset.mul_sum, hmom j (Finset.mem_range.mp hj)]
    rw [Finset.sum_congr rfl e2]
    rw [Finset.sum_eq_single_of_mem d (Finset.mem_range.mpr hdB)
      (fun j _ hjd => by rw [if_neg hjd, mul_zero])]
    rw [if_pos rfl]
  rw [hstep, eval_iterate_derivative]
  have hpow : (h : ℚ) ^ d ≠ 0 := pow_ne_zero d hh
  field_simp
  ring

/-- The centered offsets are antisymmetric under index reversal. -/
theorem get_offsetsCentered_rev (d a : ℕ) (hd : 1 ≤ d) (ha : Even a)
    (k : Fin (offsetsCentered d a).length) :
    (offsetsCentered d a).get (Fin.rev k) = -(offsetsCentered d a).get k := by
  have hlen : (offsetsCentered d a).length = numPointsCentral d a := length_offsetsCentered d a
  have hparity := numPointsCentral_odd d a hd ha
  rw [get_offsetsCentered, get_offsetsCentered]
  have hrev : ((Fin.rev k : Fin (offsetsCentered d a).length) : ℕ) =
      (offsetsCentered d a).length - 1 - (k : ℕ) := by
    simp [Fin.rev]
    omega
  have hk := k.isLt
  rw [hrev]
  omega

/-- For an even derivative order, the solved centered weights are symmetric
under index reversal (uniqueness of the stencil system solution). -/
theorem stencilWeights_rev (d a : ℕ) (hd : 1 ≤ d) (hde : Even d) (ha : Even a) (ha0 : 0 < a)
    (k : Fin (offsetsCentered d a).length) :
    stencilWeights d (offsetsCentered d a) (Fin.rev k) =
      stencilWeights d (offsetsCentered d a) k := by
  have hnd := nodup_offsetsCentered d a
  have hdet := (det_stencilMatrix_ne_zero_iff (offsetsCentered d a)).mpr hnd
  have hMv : (stencilMatrix (offsetsCentered d a)).mulVec
      (fun t => stencilWeights d (offsetsCentered d a) (Fin.rev t)) =
      unitVec (offsetsCentered d a).length d := by
    funext j
    have hrow := congrFun (stencil_mulVec d (offsetsCentered d a) hnd) j
    simp only [Matrix.mulVec, Matrix.dotProduct, stencilMatrix, Matrix.of_apply] at hrow ⊢
    have hswap : ∑ t : Fin (offsetsCentered d a).length,
        ((offsetsCentered d a).get t : ℚ) ^ (j : ℕ) / (Nat.factorial (j : ℕ) : ℚ) *
          stencilWeights d (offsetsCentered d a) (Fin.rev t) =
        ∑ t : Fin (offsetsCentered d a).length,
          ((offsetsCentered d a).get (Fin.rev t) : ℚ) ^ (j : ℕ) /
              (Nat.factorial (j : ℕ) : ℚ) *
            stencilWeights d (offsetsCentered d a) t := by
      rw [← Equiv.sum_comp (Fin.revPerm) fun t =>
        ((offsetsCentered d a).get (Fin.rev t) : ℚ) ^ (j : ℕ) /
            (Nat.factorial (j : ℕ) : ℚ) *
          stencilWeights d (offsetsCentered d a) t]
      exact Finset.sum_congr rfl fun t _ => by
        simp only [Fin.revPerm_apply, Fin.rev_rev]
    rw [hswap]
    have hneg : ∀ t : Fin (offsetsCentered d a).length,
        ((offsetsCentered d a).get (Fin.rev t) : ℚ) ^ (j : ℕ) =
          (-1 : ℚ) ^ (j : ℕ) * ((offsetsCentered d a).get t : ℚ) ^ (j : ℕ) := by
      intro t
      rw [get_offsetsCentered_rev d a hd ha t]
      push_cast
      rw [neg_pow]
    have hfactor : ∑ t : Fin (offsetsCentered d a).length,
        ((offsetsCentered d a).get (Fin.rev t) : ℚ) ^ (j : ℕ) /
            (Nat.factorial (j : ℕ) : ℚ) *
          stencilWeights d (offsetsCentered d a) t =
        (-1 : ℚ) ^ (j : ℕ) *
          ∑ t : Fin (offsetsCentered d a).length,
            ((offsetsCentered d a).get t : ℚ) ^ (j : ℕ) / (Nat.factorial (j : ℕ) : ℚ) *
              stencilWeights d (offsetsCentered d a) t := by
      rw [Finset.mul_sum]
      exact Finset.sum_congr rfl fun t _ => by rw [hneg t]; ring
    rw [hfactor, hrow]
    unfold unitVec
    by_cases hj : (j : ℕ) = d
    · rw [if_pos hj, hj, Even.neg_one_pow hde, one_mul]
    · rw [if_neg hj, mul_zero]
  have huniq := solveVec_unique (stencilMatrix (offsetsCentered d a))
    (unitVec (offsetsCentered d a).length d)
    (fun t => stencilWeights d (offsetsCentered d a) (Fin.rev t)) hdet hMv
  exact (congrFun huniq k).symm

/-- For an even derivative order, the top moment (at exponent equal to the
stencil size) of the centered stencil vanishes by symmetry. -/
theorem reflect_moment (d a : ℕ) (hd : 1 ≤ d) (hde : Even d) (ha : Even a) (ha0 : 0 < a) :
    ∑ k : Fin (offsetsCentered d a).length,
      stencilWeights d (offsetsCentered d a) k *
        (((offsetsCentered d a).get k : ℤ) : ℚ) ^ (numPointsCentral d a) = 0 := by
  have hparity := numPointsCentral_odd d a hd ha
  have hoddL : Odd (numPointsCentral d a) := ⟨halfWidth d a, by omega⟩
  have h0 := Equiv.sum_comp (Fin.revPerm) fun t : Fin (offsetsCentered d a).length =>
    stencilWeights d (offsetsCentered d a) t *
      (((offsetsCentered d a).get t : ℤ) : ℚ) ^ (numPointsCentral d a)
  simp only [Fin.revPerm_apply] at h0
  have hterm : ∀ k : Fin (offsetsCentered d a).length,
      stencilWeights d (offsetsCentered d a) (Fin.rev k) *
          (((offsetsCentered d a).get (Fin.rev k) : ℤ) : ℚ) ^ (numPointsCentral d a) =
        -(stencilWeights d (offsetsCentered d a) k *
          (((offsetsCentered d a).get k : ℤ) : ℚ) ^ (numPointsCentral d a)) := by
    intro k
    rw [stencilWeights_rev d a hd hde ha ha0 k, get_offsetsCentered_rev d a hd ha k]
    push_cast
    rw [Odd.neg_pow hoddL]
    ring
  have h2 : ∑ k : Fin (offsetsCentered d a).length,
      stencilWeights d (offsetsCentered d a) k *
        (((offsetsCentered d a).get k : ℤ) : ℚ) ^ (numPointsCentral d a) =
      -∑ k : Fin (offsetsCentered d a).length,
        stencilWeights d (offsetsCentered d a) k *
          (((offsetsCentered d a).get k : ℤ) : ℚ) ^ (numPointsCentral d a) :=
    h0.symm.trans ((Finset.sum_congr rfl fun k _ => hterm k).trans
      (by rw [Finset.sum_neg_distrib]))
  linarith

theorem stencilAt_interior (d a N i : ℕ) (hi1 : halfWidth d a ≤ i)
    (hi2 : i ≤ N - 1 - halfWidth d a) :
    stencilAt d a N i = offsetsCentered d a := by
  unfold stencilAt
  rw [if_neg (by omega), if_neg (by omega)]

/-- Exactness of the finite difference at any grid point (boundaries included)
for polynomials of degree below that point's stencil size. -/
theorem applyLine_exact_len (d a N : ℕ) (hd : 1 ≤ d) (ha : Even a) (ha0 : 0 < a)
    (hN : numPointsCentral d a ≤ N) (h : ℚ) (hh : h ≠ 0) (x0 : ℚ) (P : Polynomial ℚ)
    (i : Fin N) (hP : P.natDegree < (stencilAt d a N (i : ℕ)).length) :
    applyLine d a h (fun t : Fin N => P.eval (x0 + (t : ℚ) * h)) i =
      (Polynomial.derivative^[d] P).eval (x0 + (i : ℚ) * h) := by
  obtain ⟨hnd, hdlen, _⟩ := stencilAt_facts d a N hd ha ha0 hN (i : ℕ) i.isLt
  exact applyLine_exact_core d a N hd ha ha0 hN h hh x0 P i
    ((stencilAt d a N (i : ℕ)).length) hdlen hP (fun j hj => moments d _ hnd j hj)

/-- Exactness at interior points for polynomials of degree up to
`order + accuracy - 1` (the even-order case uses the symmetry of the centered
stencil for the extra top moment). -/
theorem applyLine_exact_interior (d a N : ℕ) (hd : 1 ≤ d) (ha : Even a) (ha0 : 0 < a)
    (hN : numPointsCentral d a ≤ N) (h : ℚ) (hh : h ≠ 0) (x0 : ℚ) (P : Polynomial ℚ)
    (i : Fin N) (hi1 : halfWidth d a ≤ (i : ℕ)) (hi2 : (i : ℕ) ≤ N - 1 - halfWidth d a)
    (hP : P.natDegree < d + a) :
    applyLine d a h (fun t : Fin N => P.eval (x0 + (t : ℚ) * h)) i =
      (Polynomial.derivative^[d] P).eval (x0 + (i : ℚ) * h) := by
  have hstc := stencilAt_interior d a N (i : ℕ) hi1 hi2
  have hL := le_numPointsCentral d a hd ha ha0
  obtain ⟨hnd, hdlen, _⟩ := stencilAt_facts d a N hd ha ha0 hN (i : ℕ) i.isLt
  have hlen : (stencilAt d a N (i : ℕ)).length = numPointsCentral d a := by
    rw [hstc, length_offsetsCentered]
  refine applyLine_exact_core d a N hd ha ha0 hN h hh x0 P i (d + a) (by omega) hP ?_
  intro j hj
  rcases lt_or_ge j (numPointsCentral d a) with hjL | hjL
  · exact moments d _ hnd j (by omega)
  · have hde : Even d := by
      by_contra hodd
      have := numPointsCentral_of_odd d a hodd
      omega
    have hjeq : j = numPointsCentral d a := by
      have := numPointsCentral_of_even d a hd hde
      omega
    subst hjeq
    have hzero := reflect_moment d a hd hde ha ha0
    rw [← hstc] at hzero
    rw [hzero, if_neg (by omega)]

/-- Modelled from the spec (§3): the per-axis derivative operator descriptor
`AxisDerivativeOperator`. -/
structure AxisDeriv where
  axis : Fin 2
  order : ℕ
  accuracy : ℕ
  spacing : ℚ

/-- Modelled from the spec (§3, §4.4): the operator expression tree
`OperatorExpression` with its five node kinds. -/
inductive Expr (m n : ℕ) where
  | axisOp (op : AxisDeriv)
  | coeff (field : Fin m → Fin n → ℚ) (child : Expr m n)
  | sum (a b : Expr m n)
  | scale (s : ℚ) (child : Expr m n)
  | prod (a b : Expr m n)

/-- Modelled from the spec (§4.2): application of an axis-derivative operator
to a 2-D sampled array, line by line along the operator's axis. -/
def applyAxis {m n : ℕ} (op : AxisDeriv) (u : Fin m → Fin n → ℚ) : Fin m → Fin n → ℚ :=
  if op.axis = 0 then fun i j => applyLine op.order op.accuracy op.spacing (fun t => u t j) i
  else fun i j => applyLine op.order op.accuracy op.spacing (fun t => u i t) j

/-- Modelled from the spec (§4.4): recursive evaluation of an operator
expression against an input array. -/
def evaluate {m n : ℕ} : Expr m n → (Fin m → Fin n → ℚ) → Fin m → Fin n → ℚ
  | .axisOp op, u => applyAxis op u
  | .coeff f e, u => fun i j => f i j * evaluate e u i j
  | .sum a b, u => fun i j => evaluate a u i j + evaluate b u i j
  | .scale s e, u => fun i j => s * evaluate e u i j
  | .prod a b, u => evaluate a (evaluate b u)

/-- Modelled from the notebook API: `FinDiff(axis, spacing, order)`, with the
derivative order defaulting to 1 and the accuracy defaulting to 2 when
omitted. -/
def FinDiff {m n : ℕ} (axis : Fin 2) (spacing : ℚ) (order : ℕ := 1)
    (accuracy : ℕ := 2) : Expr m n :=
  .axisOp ⟨axis, order, accuracy, spacing⟩

/-- Modelled from the notebook API: `Coefficient(field) * expr` builds a
coefficient-multiplication node around the operator it multiplies. -/
def Coefficient {m n : ℕ} (field : Fin m → Fin n → ℚ) (child : Expr m n) : Expr m n :=
  .coeff field child

/-- Modelled from the spec (§4.2, §7): the checked operator constructor; it
validates the spacing and that the axis holds at least the minimal centered
stencil width, else fails with `InsufficientGridError`. -/
def mkFinDiff (m n : ℕ) (axis : Fin 2) (spacing : ℚ) (order : ℕ)
    (accuracy : ℕ := 2) : Except FindiffError (Expr m n) :=
  if spacing ≤ 0 then .error .invalidSpacing
  else if (if axis = 0 then m else n) < numPointsCentral order accuracy then
    .error .insufficientGrid
  else .ok (.axisOp ⟨axis, order, accuracy, spacing⟩)

/-- The radial grid of the notebook: `r = np.linspace(0.1, 10, 100)`, whose
uniform spacing `dr = r[1] - r[0]` is exactly `1/10`. -/
def rCoord (i : Fin 100) : ℚ := 1 / 10 + (i : ℚ) * (1 / 10)

/-- The notebook's sampled field `f_polar = R**2` on the 100×100 polar grid. -/
def fPolar : Fin 100 → Fin 100 → ℚ := fun i _ => rCoord i ^ 2

/-- The notebook's polar Laplacian
`FinDiff(0, dr, 2) + Coefficient(1/R) * FinDiff(0, dr) + Coefficient(1/R**2) * FinDiff(1, dphi, 2)`.
The angular spacing is a parameter because `dphi = 2π/100` is irrational; the
result below holds for every nonzero rational spacing, hence in particular for
any rational reading of `dphi`. -/
def laplacePolar (dphi : ℚ) : Expr 100 100 :=
  .sum
    (.sum (FinDiff 0 (1 / 10) 2)
      (Coefficient (fun i _ => (rCoord i)⁻¹) (FinDiff 0 (1 / 10))))
    (Coefficient (fun i _ => (rCoord i ^ 2)⁻¹) (FinDiff 1 dphi 2))

/-- C1: evaluating the composite polar-Laplacian operator against the sampled
field `f(r, φ) = r²` on the notebook's 100×100 polar grid yields exactly 4 at
every interior grid point (the exact-rational counterpart of "4.0 within
numerical tolerance"). -/
theorem claim_C1 (dphi : ℚ) (hphi : dphi ≠ 0) (i j : Fin 100)
    (hi : 1 ≤ (i : ℕ) ∧ (i : ℕ) ≤ 98) (hj : 1 ≤ (j : ℕ) ∧ (j : ℕ) ≤ 98) :
    evaluate (laplacePolar dphi) fPolar i j = 4 := by
  have hipos : (0 : ℚ) ≤ ((i : ℕ) : ℚ) := Nat.cast_nonneg _
  have hrpos : (0 : ℚ) < rCoord i := by
    unfold rCoord
    positivity
  have hrne : rCoord i ≠ 0 := ne_of_gt hrpos
  have hw2 : halfWidth 2 2 = 1 := rfl
  have hw1 : halfWidth 1 2 = 1 := rfl
  have hunfold : evaluate (laplacePolar dphi) fPolar i j =
      applyLine 2 2 (1 / 10) (fun t : Fin 100 => fPolar t j) i +
        (rCoord i)⁻¹ * applyLine 1 2 (1 / 10) (fun t : Fin 100 => fPolar t j) i +
        (rCoord i ^ 2)⁻¹ * applyLine 2 2 dphi (fun t : Fin 100 => fPolar i t) j := rfl
  have hfun1 : (fun t : Fin 100 => fPolar t j) =
      (fun t : Fin 100 =>
        (Polynomial.X ^ 2 : Polynomial ℚ).eval ((1 : ℚ) / 10 + (t : ℚ) * (1 / 10))) := by
    funext t
    simp [fPolar, rCoord]
  have hT1 : applyLine 2 2 (1 / 10) (fun t : Fin 100 => fPolar t j) i = 2 := by
    rw [hfun1, applyLine_exact_interior 2 2 100 (by norm_num) ⟨1, rfl⟩ (by norm_num)
      (by decide) (1 / 10) (by norm_num) (1 / 10) (Polynomial.X ^ 2) i
      (by omega) (by omega)
      (by simp [Polynomial.natDegree_X_pow])]
    simp [Function.iterate_succ_apply', Polynomial.derivative_X_pow]
  have hT2 : applyLine 1 2 (1 / 10) (fun t : Fin 100 => fPolar t j) i =
      2 * rCoord i := by
    rw [hfun1, applyLine_exact_interior 1 2 100 (by norm_num) ⟨1, rfl⟩ (by norm_num)
      (by decide) (1 / 10) (by norm_num) (1 / 10) (Polynomial.X ^ 2) i
      (by omega) (by omega)
      (by simp [Polynomial.natDegree_X_pow])]
    simp [Function.iterate_succ_apply', Polynomial.derivative_X_pow, rCoord]
  have hT3 : applyLine 2 2 dphi (fun t : Fin 100 => fPolar i t) j = 0 := by
    have : (fun t : Fin 100 => fPolar i t) = (fun _ : Fin 100 => rCoord i ^ 2) := rfl
    rw [this]
    exact applyLine_const 2 2 100 (by norm_num) ⟨1, rfl⟩ (by norm_num) (by decide)
      dphi (rCoord i ^ 2) j
  rw [hunfold, hT1, hT2, hT3, mul_zero, add_zero]
  field_simp
  norm_num

/-- C3: an axis-derivative operator of order `d` and accuracy `a` reproduces
the exact analytic derivative at every interior point when the sampled field is
polynomial of degree at most `d + a - 1` along the operator's axis (stated for
both axes of the 2-D grid). -/
theorem claim_C3 (d a : ℕ) (hd : 1 ≤ d) (ha : Even a) (ha0 : 0 < a) (m n : ℕ)
    (sp : ℚ) (hsp : sp ≠ 0) (x0 : ℚ) :
    (numPointsCentral d a ≤ m →
      ∀ P : Fin n → Polynomial ℚ, (∀ t, (P t).natDegree ≤ d + a - 1) →
        ∀ (i : Fin m) (j : Fin n), halfWidth d a ≤ (i : ℕ) →
          (i : ℕ) ≤ m - 1 - halfWidth d a →
          evaluate (.axisOp ⟨0, d, a, sp⟩)
              (fun t s => (P s).eval (x0 + (t : ℚ) * sp)) i j =
            (Polynomial.derivative^[d] (P j)).eval (x0 + (i : ℚ) * sp)) ∧
    (numPointsCentral d a ≤ n →
      ∀ Q : Fin m → Polynomial ℚ, (∀ t, (Q t).natDegree ≤ d + a - 1) →
        ∀ (i : Fin m) (j : Fin n), halfWidth d a ≤ (j : ℕ) →
          (j : ℕ) ≤ n - 1 - halfWidth d a →
          evaluate (.axisOp ⟨1, d, a, sp⟩)
              (fun t s => (Q t).eval (x0 + (s : ℚ) * sp)) i j =
            (Polynomial.derivative^[d] (Q i)).eval (x0 + (j : ℚ) * sp)) := by
  constructor
  · intro hm P hdeg i j hi1 hi2
    have hshape : evaluate (.axisOp ⟨0, d, a, sp⟩)
        (fun t s => (P s).eval (x0 + (t : ℚ) * sp)) i j =
        applyLine d a sp (fun t : Fin m => (P j).eval (x0 + (t : ℚ) * sp)) i := rfl
    rw [hshape]
    exact applyLine_exact_interior d a m hd ha ha0 hm sp hsp x0 (P j) i hi1 hi2
      (by have := hdeg j; omega)
  · intro hn Q hdeg i j hj1 hj2
    have hshape : evaluate (.axisOp ⟨1, d, a, sp⟩)
        (fun t s => (Q t).eval (x0 + (s : ℚ) * sp)) i j =
        applyLine d a sp (fun t : Fin n => (Q i).eval (x0 + (t : ℚ) * sp)) j := rfl
    rw [hshape]
    exact applyLine_exact_interior d a n hd ha ha0 hn sp hsp x0 (Q i) j hj1 hj2
      (by have := hdeg i; omega)

/-- C6: evaluating a `Sum` node equals the elementwise sum of the separately
evaluated children, for every pair of expressions and every input. -/
theorem claim_C6 (m n : ℕ) (a b : Expr m n) (u : Fin m → Fin n → ℚ)
    (i : Fin m) (j : Fin n) :
    evaluate (.sum a b) u i j = evaluate a u i j + evaluate b u i j := rfl

/-- C10: `FinDiff` with the derivative order omitted builds the
first-derivative operator along the given axis: it is the same expression as
`FinDiff` with order 1, and evaluates identically on every input. -/
theorem claim_C10 (m n : ℕ) (axis : Fin 2) (sp : ℚ) (u : Fin m → Fin n → ℚ) :
    (FinDiff axis sp : Expr m n) = FinDiff axis sp 1 ∧
      evaluate (FinDiff axis sp : Expr m n) u = evaluate (FinDiff axis sp 1) u :=
  ⟨rfl, rfl⟩

theorem getD_weightsList (order : ℕ) (offs : List ℤ) (k : Fin offs.length) :
    (weightsList order offs).getD (k : ℕ) 0 = stencilWeights order offs k := by
  unfold weightsList
  rw [List.getD_eq_getElem (List.ofFn (stencilWeights order offs)) 0
    (by rw [List.length_ofFn]; exact k.isLt)]
  rw [List.getElem_ofFn]

/-- C2: for every order ≥ 1 and every sequence of at least `order + 1` distinct
integer offsets, `solve` succeeds with exactly one weight per offset, and the
returned weights solve the linear system `M·w = e_order` with
`M[j][i] = offsets[i]^j / j!`. -/
theorem claim_C2 (order : ℕ) (offs : List ℤ) (h1 : 1 ≤ order) (h2 : offs.Nodup)
    (h3 : order + 1 ≤ offs.length) :
    solve order offs = .ok (weightsList order offs) ∧
      (weightsList order offs).length = offs.length ∧
      (stencilMatrix offs).mulVec
          (fun k => (weightsList order offs).getD (k : ℕ) 0) =
        unitVec offs.length order := by
  refine ⟨solve_ok order offs h2 (by omega), ?_, ?_⟩
  · unfold weightsList
    exact List.length_ofFn _
  · have hfun : (fun k : Fin offs.length => (weightsList order offs).getD (k : ℕ) 0) =
        stencilWeights order offs := funext fun k => getD_weightsList order offs k
    rw [hfun]
    exact stencil_mulVec order offs h2

theorem claim_C2_witness :
    solve 1 [-1, 0, 1] = .ok (weightsList 1 [-1, 0, 1]) ∧
      (weightsList 1 [-1, 0, 1]).length = ([-1, 0, 1] : List ℤ).length ∧
      (stencilMatrix [-1, 0, 1]).mulVec
          (fun k => (weightsList 1 [-1, 0, 1]).getD (k : ℕ) 0) =
        unitVec ([-1, 0, 1] : List ℤ).length 1 :=
  claim_C2 1 [-1, 0, 1] (by norm_num) (by decide) (by decide)

/-- C4: `solve` fails (and then always with `SingularStencilError`) exactly
when there are fewer than `order + 1` distinct offsets or duplicate offsets;
on every other input it returns one weight per offset without error. -/
theorem claim_C4 (order : ℕ) (offs : List ℤ) :
    (solve order offs = .error .singularStencil ↔
      (offs.dedup.length < order + 1 ∨ ¬ offs.Nodup)) ∧
      (¬ (offs.dedup.length < order + 1 ∨ ¬ offs.Nodup) →
        ∃ w : List ℚ, solve order offs = .ok w ∧ w.length = offs.length) := by
  have hdet := det_stencilMatrix_ne_zero_iff offs
  have hiff : (offs.dedup.length < order + 1 ∨ ¬ offs.Nodup) ↔
      ¬ ((stencilMatrix offs).det ≠ 0 ∧ order < offs.length) := by
    by_cases hnd : offs.Nodup
    · have hdedup : offs.dedup = offs := List.dedup_eq_self.mpr hnd
      rw [hdedup]
      simp [hnd, hdet]
      omega
    · simp [hnd, hdet]
  constructor
  · rw [hiff]
    unfold solve
    by_cases hcond : (stencilMatrix offs).det ≠ 0 ∧ order < offs.length
    · rw [if_pos hcond]
      simp [hcond]
    · rw [if_neg hcond]
      simp [hcond]
  · intro hnot
    rw [hiff, not_not] at hnot
    refine ⟨weightsList order offs, ?_, ?_⟩
    · unfold solve
      rw [if_pos hnot]
    · unfold weightsList
      exact List.length_ofFn _

theorem claim_C4_witness :
    ∃ w : List ℚ, solve 1 [-1, 0, 1] = .ok w ∧ w.length = ([-1, 0, 1] : List ℤ).length :=
  (claim_C4 1 [-1, 0, 1]).2 (by decide)

/-- C5 as stated is contradictory on the model: an axis of length 3 holds fewer
than `order + accuracy = 4` samples for order 2, accuracy 2, yet construction
succeeds — as the spec's own exact-minimum test case requires. -/
theorem claim_C5_counterexample :
    3 < 2 + 2 ∧ mkFinDiff 3 3 0 1 2 2 = .ok (.axisOp ⟨0, 2, 2, 1⟩) :=
  ⟨by norm_num, rfl⟩

/-- C5 (amended): constructing the order-2 accuracy-2 operator succeeds on an
axis of length 3 (the exact minimum) and fails on length 2 with
`InsufficientGridError`; in general an axis shorter than the minimal centered
stencil width `2⌊(order+1)/2⌋ - 1 + accuracy` raises `InsufficientGridError`
instead of silently degrading. -/
theorem claim_C5 :
    mkFinDiff 3 3 0 1 2 2 = .ok (.axisOp ⟨0, 2, 2, 1⟩) ∧
      mkFinDiff 2 3 0 1 2 2 = .error .insufficientGrid ∧
      ∀ (m n : ℕ) (axis : Fin 2) (sp : ℚ) (order accuracy : ℕ), 0 < sp →
        (if axis = 0 then m else n) < numPointsCentral order accuracy →
        mkFinDiff m n axis sp order accuracy = .error .insufficientGrid := by
  refine ⟨rfl, rfl, ?_⟩
  intro m n axis sp order accuracy hsp hlen
  unfold mkFinDiff
  rw [if_neg (not_le.mpr hsp), if_pos hlen]

theorem claim_C5_witness :
    mkFinDiff 2 5 0 1 2 2 = .error .insufficientGrid :=
  (claim_C5).2.2 2 5 0 1 2 2 (by norm_num) (by decide)

/-- The spatially varying coefficient field `c(x) = x` on a 5×1 grid. -/
def cf7 : Fin 5 → Fin 1 → ℚ := fun i _ => ((i : ℕ) : ℚ)

/-- The input field `u(x) = x²` on a 5×1 grid. -/
def u7 : Fin 5 → Fin 1 → ℚ := fun i _ => ((i : ℕ) : ℚ) ^ 2

/-- First-derivative operator along axis 0 with unit spacing on a 5×1 grid. -/
def a7 : Expr 5 1 := FinDiff 0 1 1

/-- A spatially varying `Coefficient` node wrapping the derivative. -/
def b7 : Expr 5 1 := Coefficient cf7 a7

/-- C7: `Product` evaluates as sequential composition (apply the right factor,
then the left), and is non-commutative: with the spatially varying coefficient
node `b7`, the two product orders evaluate differently on `u(x) = x²`. -/
theorem claim_C7 :
    (∀ (m n : ℕ) (A B : Expr m n) (u : Fin m → Fin n → ℚ),
        evaluate (.prod A B) u = evaluate A (evaluate B u)) ∧
      evaluate (.prod a7 b7) u7 ≠ evaluate (.prod b7 a7) u7 := by
  constructor
  · intro m n A B u
    rfl
  · have hstencL : ∀ t : Fin 5, (stencilAt 1 2 5 (t : ℕ)).length = 3 := by decide
    have hDu : ∀ t : Fin 5, evaluate a7 u7 t 0 = 2 * ((t : ℕ) : ℚ) := by
      intro t
      have hshape : evaluate a7 u7 t 0 = applyLine 1 2 1 (fun s : Fin 5 => u7 s 0) t := rfl
      have hfun : (fun s : Fin 5 => u7 s 0) =
          (fun s : Fin 5 =>
            (Polynomial.X ^ 2 : Polynomial ℚ).eval ((0 : ℚ) + ((s : ℕ) : ℚ) * 1)) := by
        funext s
        simp [u7]
      rw [hshape, hfun, applyLine_exact_len 1 2 5 (by norm_num) ⟨1, rfl⟩ (by norm_num)
        (by decide) 1 (by norm_num) 0 (Polynomial.X ^ 2) t
        (by rw [Polynomial.natDegree_X_pow, hstencL t]; norm_num)]
      simp [Polynomial.derivative_X_pow]
    have hbu : (fun t : Fin 5 => evaluate b7 u7 t 0) =
        (fun t : Fin 5 =>
          (Polynomial.C 2 * Polynomial.X ^ 2 : Polynomial ℚ).eval
            ((0 : ℚ) + ((t : ℕ) : ℚ) * 1)) := by
      funext t
      have hshape : evaluate b7 u7 t 0 = cf7 t 0 * evaluate a7 u7 t 0 := rfl
      rw [hshape, hDu t]
      simp [cf7]
      ring
    have hau : (fun t : Fin 5 => evaluate a7 u7 t 0) =
        (fun t : Fin 5 =>
          (Polynomial.C 2 * Polynomial.X : Polynomial ℚ).eval
            ((0 : ℚ) + ((t : ℕ) : ℚ) * 1)) := by
      funext t
      rw [hDu t]
      simp
    have hL : evaluate (.prod a7 b7) u7 1 0 = 4 := by
      have hshape : evaluate (.prod a7 b7) u7 1 0 =
          applyLine 1 2 1 (fun t : Fin 5 => evaluate b7 u7 t 0) 1 := rfl
      rw [hshape, hbu, applyLine_exact_len 1 2 5 (by norm_num) ⟨1, rfl⟩ (by norm_num)
        (by decide) 1 (by norm_num) 0 (Polynomial.C 2 * Polynomial.X ^ 2) 1
        (by rw [Polynomial.natDegree_C_mul_X_pow 2 (2 : ℚ) (by norm_num)]
            rw [hstencL 1]
            norm_num)]
      simp [Polynomial.derivative_X_pow]
      norm_num
    have hR : evaluate (.prod b7 a7) u7 1 0 = 2 := by
      have hshape : evaluate (.prod b7 a7) u7 1 0 =
          cf7 1 0 * applyLine 1 2 1 (fun t : Fin 5 => evaluate a7 u7 t 0) 1 := rfl
      rw [hshape, hau, applyLine_exact_len 1 2 5 (by norm_num) ⟨1, rfl⟩ (by norm_num)
        (by decide) 1 (by norm_num) 0 (Polynomial.C 2 * Polynomial.X) 1
        (by rw [Polynomial.natDegree_C_mul_X (2 : ℚ) (by norm_num)]
            rw [hstencL 1]
            norm_num)]
      simp [cf7]
    intro hcon
    have h10 := congrFun (congrFun hcon 1) 0
    rw [hL, hR] at h10
    norm_num at h10

/-- C8: the centered stencil weights sum to zero for every order ≥ 1, and the
axis-derivative operator of any order ≥ 1 maps a constant field to zero at
every grid point. -/
theorem claim_C8 (d a : ℕ) (hd : 1 ≤ d) (ha : Even a) (ha0 : 0 < a) :
    (∑ k : Fin (offsetsCentered d a).length, stencilWeights d (offsetsCentered d a) k = 0) ∧
      ∀ (m n : ℕ) (axis : Fin 2) (sp : ℚ), sp ≠ 0 →
        numPointsCentral d a ≤ m → numPointsCentral d a ≤ n →
        ∀ (c : ℚ) (i : Fin m) (j : Fin n),
          evaluate (.axisOp ⟨axis, d, a, sp⟩) (fun _ _ => c) i j = 0 := by
  constructor
  · apply sum_stencilWeights_eq_zero d _ (nodup_offsetsCentered d a) hd
    rw [length_offsetsCentered]
    have := le_numPointsCentral d a hd ha ha0
    omega
  · intro m n axis sp hsp hm hn c i j
    fin_cases axis
    · show applyLine d a sp (fun _ : Fin m => c) i = 0
      exact applyLine_const d a m hd ha ha0 hm sp c i
    · show applyLine d a sp (fun _ : Fin n => c) j = 0
      exact applyLine_const d a n hd ha ha0 hn sp c j

theorem claim_C8_witness :
    (∑ k : Fin (offsetsCentered 2 2).length, stencilWeights 2 (offsetsCentered 2 2) k = 0) ∧
      evaluate (Expr.axisOp ⟨0, 2, 2, 1⟩ : Expr 3 3) (fun _ _ => (7 : ℚ)) 0 0 = 0 :=
  ⟨(claim_C8 2 2 (by norm_num) ⟨1, rfl⟩ (by norm_num)).1,
    (claim_C8 2 2 (by norm_num) ⟨1, rfl⟩ (by norm_num)).2 3 3 0 1 (by norm_num)
      (by decide) (by decide) 7 0 0⟩

/-- Modelled from the spec (§4.2, §9): a stencil-cache key holds only grid
geometry — the derivative order and the offset list — never field values. -/
abbrev StencilKey : Type := ℕ × List ℤ

/-- Modelled from the spec (§4.2): a cache of solved stencil weights keyed by
geometry. -/
abbrev StencilCache : Type := List (StencilKey × List ℚ)

def cacheFind (c : StencilCache) (key : StencilKey) : Option (List ℚ) :=
  match c with
  | [] => none
  | e :: rest => if e.1 = key then some e.2 else cacheFind rest key

def cacheAdd (c : StencilCache) (key : StencilKey) : StencilCache :=
  match cacheFind c key with
  | some _ => c
  | none => (key, weightsList key.1 key.2) :: c

/-- A cache is valid when every stored entry equals the recomputed weights of
its geometry key — so cached data is a function of grid geometry alone. -/
def ValidCache (c : StencilCache) : Prop :=
  ∀ key w, cacheFind c key = some w → w = weightsList key.1 key.2

theorem validCache_nil : ValidCache [] := by
  intro key w h
  simp [cacheFind] at h

theorem validCache_cacheAdd (c : StencilCache) (key : StencilKey) (hc : ValidCache c) :
    ValidCache (cacheAdd c key) := by
  unfold cacheAdd
  cases hfind : cacheFind c key with
  | some w => exact hc
  | none =>
    intro k w h
    simp only [cacheFind] at h
    by_cases hk : key = k
    · subst hk
      rw [if_pos rfl] at h
      exact (Option.some_injective _ h).symm
    · rw [if_neg hk] at h
      exact hc k w h

/-- Install the stencils of every point of one axis line into the cache. -/
def buildLineCache (ord acc N : ℕ) (c : StencilCache) : StencilCache :=
  (List.range N).foldl (fun acc2 t => cacheAdd acc2 (ord, stencilAt ord acc N t)) c

theorem validCache_foldl (l : List ℕ) (f : ℕ → StencilKey) (c : StencilCache)
    (hc : ValidCache c) :
    ValidCache (l.foldl (fun acc2 t => cacheAdd acc2 (f t)) c) := by
  induction l generalizing c with
  | nil => exact hc
  | cons x xs ih => exact ih _ (validCache_cacheAdd c (f x) hc)

theorem validCache_build (ord acc N : ℕ) (c : StencilCache) (hc : ValidCache c) :
    ValidCache (buildLineCache ord acc N c) :=
  validCache_foldl (List.range N) (fun t => (ord, stencilAt ord acc N t)) c hc

/-- Modelled from the spec (§4.2): per-line application reading weights from
the stencil cache, recomputing on a miss. -/
def applyLineC (c : StencilCache) (d a : ℕ) (h : ℚ) {N : ℕ} (u : Fin N → ℚ)
    (i : Fin N) : ℚ :=
  (h ^ d)⁻¹ * ∑ k : Fin (stencilAt d a N (i : ℕ)).length,
    ((cacheFind c (d, stencilAt d a N (i : ℕ))).getD
        (weightsList d (stencilAt d a N (i : ℕ)))).getD (k : ℕ) 0 *
      lineExt N u (((i : ℕ) : ℤ) + (stencilAt d a N (i : ℕ)).get k)

theorem applyLineC_eq (c : StencilCache) (hc : ValidCache c) (d a : ℕ) (h : ℚ)
    {N : ℕ} (u : Fin N → ℚ) (i : Fin N) :
    applyLineC c d a h u i = applyLine d a h u i := by
  unfold applyLineC applyLine
  refine congrArg (fun z => (h ^ d)⁻¹ * z) ?_
  refine Finset.sum_congr rfl fun k _ => ?_
  have hwl : ((cacheFind c (d, stencilAt d a N (i : ℕ))).getD
      (weightsList d (stencilAt d a N (i : ℕ)))) =
      weightsList d (stencilAt d a N (i : ℕ)) := by
    cases hfind : cacheFind c (d, stencilAt d a N (i : ℕ)) with
    | none => rw [Option.getD_none]
    | some w =>
      rw [Option.getD_some]
      exact hc (d, stencilAt d a N (i : ℕ)) w hfind
  rw [hwl, getD_weightsList]

/-- Modelled from the spec (§4.2, §4.4): evaluation threading the stencil
cache; an axis application first installs its line stencils, then reads the
weights back from the cache. -/
def evaluateC {m n : ℕ} : StencilCache → Expr m n → (Fin m → Fin n → ℚ) →
    (Fin m → Fin n → ℚ) × StencilCache
  | c, .axisOp op, u =>
    if op.axis = 0 then
      let c2 := buildLineCache op.order op.accuracy m c
      (fun i j => applyLineC c2 op.order op.accuracy op.spacing (fun t => u t j) i, c2)
    else
      let c2 := buildLineCache op.order op.accuracy n c
      (fun i j => applyLineC c2 op.order op.accuracy op.spacing (fun t => u i t) j, c2)
  | c, .coeff f e, u =>
    let r := evaluateC c e u
    (fun i j => f i j * r.1 i j, r.2)
  | c, .sum a b, u =>
    let ra := evaluateC c a u
    let rb := evaluateC ra.2 b u
    (fun i j => ra.1 i j + rb.1 i j, rb.2)
  | c, .scale s e, u =>
    let r := evaluateC c e u
    (fun i j => s * r.1 i j, r.2)
  | c, .prod a b, u =>
    let rb := evaluateC c b u
    evaluateC rb.2 a rb.1

/-- Cached evaluation computes the pure evaluation and preserves cache
validity, for every starting valid cache. -/
theorem evaluateC_correct {m n : ℕ} (e : Expr m n) :
    ∀ (c : StencilCache) (u : Fin m → Fin n → ℚ), ValidCache c →
      (evaluateC c e u).1 = evaluate e u ∧ ValidCache (evaluateC c e u).2 := by
  induction e with
  | axisOp op =>
    intro c u hc
    unfold evaluateC
    by_cases hax : op.axis = 0
    · rw [if_pos hax]
      refine ⟨?_, validCache_build op.order op.accuracy m c hc⟩
      funext i j
      show applyLineC (buildLineCache op.order op.accuracy m c) op.order op.accuracy
          op.spacing (fun t => u t j) i = evaluate (.axisOp op) u i j
      rw [applyLineC_eq _ (validCache_build op.order op.accuracy m c hc)]
      show applyLine op.order op.accuracy op.spacing (fun t => u t j) i =
        applyAxis op u i j
      unfold applyAxis
      rw [if_pos hax]
    · rw [if_neg hax]
      refine ⟨?_, validCache_build op.order op.accuracy n c hc⟩
      funext i j
      show applyLineC (buildLineCache op.order op.accuracy n c) op.order op.accuracy
          op.spacing (fun t => u i t) j = evaluate (.axisOp op) u i j
      rw [applyLineC_eq _ (validCache_build op.order op.accuracy n c hc)]
      show applyLine op.order op.accuracy op.spacing (fun t => u i t) j =
        applyAxis op u i j
      unfold applyAxis
      rw [if_neg hax]
  | coeff f e ih =>
    intro c u hc
    obtain ⟨h1, h2⟩ := ih c u hc
    refine ⟨?_, h2⟩
    funext i j
    show f i j * (evaluateC c e u).1 i j = evaluate (.coeff f e) u i j
    rw [h1]
    rfl
  | sum a b iha ihb =>
    intro c u hc
    obtain ⟨ha1, ha2⟩ := iha c u hc
    obtain ⟨hb1, hb2⟩ := ihb (evaluateC c a u).2 u ha2
    refine ⟨?_, hb2⟩
    funext i j
    show (evaluateC c a u).1 i j + (evaluateC (evaluateC c a u).2 b u).1 i j =
      evaluate (.sum a b) u i j
    rw [ha1, hb1]
    rfl
  | scale s e ih =>
    intro c u hc
    obtain ⟨h1, h2⟩ := ih c u hc
    refine ⟨?_, h2⟩
    funext i j
    show s * (evaluateC c e u).1 i j = evaluate (.scale s e) u i j
    rw [h1]
    rfl
  | prod a b iha ihb =>
    intro c u hc
    obtain ⟨hb1, hb2⟩ := ihb c u hc
    obtain ⟨ha1, ha2⟩ := iha (evaluateC c b u).2 (evaluateC c b u).1 hb2
    refine ⟨?_, ha2⟩
    show (evaluateC (evaluateC c b u).2 a (evaluateC c b u).1).1 = evaluate (.prod a b) u
    rw [ha1, hb1]
    rfl

/-- C9: evaluation is deterministic and free of hidden per-input state — with
the stencil cache modelled explicitly, evaluating the same expression against
the same input twice (the second run reusing the first run's cache) produces
the pure evaluation result both times, and every cache entry remains a
function of grid geometry alone (its key), never of field values. -/
theorem claim_C9 (m n : ℕ) (e : Expr m n) (u : Fin m → Fin n → ℚ)
    (c : StencilCache) (hc : ValidCache c) :
    (evaluateC c e u).1 = evaluate e u ∧
      (evaluateC (evaluateC c e u).2 e u).1 = evaluate e u ∧
      ValidCache (evaluateC c e u).2 := by
  obtain ⟨h1, h2⟩ := evaluateC_correct e c u hc
  obtain ⟨h3, h4⟩ := evaluateC_correct e (evaluateC c e u).2 u h2
  exact ⟨h1, h3, h2⟩

theorem claim_C9_witness :
    (evaluateC [] (FinDiff 0 1 1 : Expr 3 3) (fun _ _ => 1)).1 =
        evaluate (FinDiff 0 1 1 : Expr 3 3) (fun _ _ => 1) ∧
      (evaluateC (evaluateC [] (FinDiff 0 1 1 : Expr 3 3) (fun _ _ => 1)).2
          (FinDiff 0 1 1 : Expr 3 3) (fun _ _ => 1)).1 =
        evaluate (FinDiff 0 1 1 : Expr 3 3) (fun _ _ => 1) ∧
      ValidCache (evaluateC [] (FinDiff 0 1 1 : Expr 3 3) (fun _ _ => 1)).2 :=
  claim_C9 3 3 (FinDiff 0 1 1) (fun _ _ => 1) [] validCache_nil

theorem claim_C1_witness :
    (157 : ℚ) / 2500 ≠ 0 ∧
      evaluate (laplacePolar (157 / 2500)) fPolar 5 5 = 4 :=
  ⟨by norm_num, claim_C1 (157 / 2500) (by norm_num) 5 5 (by decide) (by decide)⟩

theorem claim_C3_witness :
    evaluate (Expr.axisOp ⟨0, 2, 2, 1⟩ : Expr 3 1)
        (fun t _ => (Polynomial.X ^ 2 : Polynomial ℚ).eval ((0 : ℚ) + (t : ℚ) * 1)) 1 0 =
      (Polynomial.derivative^[2] (Polynomial.X ^ 2 : Polynomial ℚ)).eval
        ((0 : ℚ) + (((1 : Fin 3)) : ℚ) * 1) :=
  (claim_C3 2 2 (by norm_num) ⟨1, rfl⟩ (by norm_num) 3 1 1 (by norm_num) 0).1
    (by decide) (fun _ => Polynomial.X ^ 2)
    (fun _ => by simp [Polynomial.natDegree_X_pow]) 1 0 (by decide) (by decide)

end Findiff
